import Mathlib

/-!
Verification development for the two channel-sync modules of the
seller-apis repository: `seller.py` (Ozon channel) and `market.py`
(Yandex Market channel).  Pure reconciliation, normalization, pagination
and chunking logic is embedded shallowly; network calls are abstracted
as response oracles, Python exceptions as `Option`/failure values, and
in-place mutation of the offer-id list of the caller as explicit state
passing (the function returns the final state of the list).
-/

/-- Base-10 value of a list of decimal digit characters,
as accumulated left to right. -/
def digitsToNat (ds : List Char) : Nat :=
  ds.foldl (fun acc c => acc * 10 + (c.toNat - Char.toNat (Char.ofNat 48))) 0

/-- Character-list core of `pyInt`. -/
def pyIntChars : List Char → Option Int
  | [] => none
  | c :: ds =>
    if c = Char.ofNat 45 then
      if ds ≠ [] ∧ ds.all Char.isDigit then some (-(digitsToNat ds : Int)) else none
    else if c = Char.ofNat 43 then
      if ds ≠ [] ∧ ds.all Char.isDigit then some (digitsToNat ds : Int) else none
    else
      if (c :: ds).all Char.isDigit then some (digitsToNat (c :: ds) : Int) else none

/-- Embedding of Python `int(s)` on a string: an optional sign followed by a
non-empty run of ASCII decimal digits parses to the signed value; anything
else raises `ValueError`, modelled as `none`.  (Whitespace padding and
underscore separators, which CPython also accepts, are not modelled; no
input considered here contains them.) -/
def pyInt (s : String) : Option Int :=
  pyIntChars s.toList

/-- Character-list core of `isNumericToken`. -/
def isNumericTokenChars : List Char → Bool
  | [] => false
  | c :: ds =>
    if c = Char.ofNat 45 ∨ c = Char.ofNat 43 then decide (ds ≠ []) && ds.all Char.isDigit
    else (c :: ds).all Char.isDigit

/-- Syntactic characterization of the tokens accepted by `pyInt`:
an optional ASCII sign followed by a non-empty digit run. -/
def isNumericToken (s : String) : Bool :=
  isNumericTokenChars s.toList

/-- One row of the vendor feed spreadsheet, with the fields the two modules
read: `code` is `str(row["Код"])`, `quantity` is `str(row["Количество"])`,
`price` is `row["Цена"]`. -/
structure FeedRecord where
  code : String
  quantity : String
  price : String
deriving DecidableEq, Repr

/-- The quantity-token normalization shared verbatim by
`seller.create_stocks` (lines 155-161) and `market.create_stocks`
(lines 119-120): `">10"` maps to 100, `"1"` maps to 0, anything else goes
through Python `int`, whose `ValueError` is modelled as `none`. -/
def normalizeQuantity (token : String) : Option Int :=
  if token = ">10" then some 100
  else if token = "1" then some 0
  else pyInt token

/-- Embedding of `seller.price_conversion` (line 206):
`re.sub("[^0-9]", "", price.split(".")[0])` — keep the prefix before the
first dot, then drop every character that is not an ASCII digit.
It never raises; on an input with no digits before the first dot it
returns the empty string. -/
def price_conversion (price : String) : String :=
  ((price.toList.takeWhile (fun c => c ≠ Char.ofNat 46)).filter Char.isDigit).asString

/-- Fuelled core of `seller.divide`; the fuel is an upper bound on the
number of chunks and is set to `lst.length` by `divide`, which suffices
whenever `0 < n`. -/
def divideAux : Nat → List α → Nat → List (List α)
  | 0, _, _ => []
  | _ + 1, [], _ => []
  | fuel + 1, a :: as, n => (a :: as).take n :: divideAux fuel ((a :: as).drop n) n

/-- Embedding of `seller.divide` (lines 208-219): `for i in range(0, len(lst), n): yield
lst[i : i + n]`, materialized as a list of chunks.  Python raises
`ValueError` for `n = 0` (zero `range` step); that case is mapped to `[]`
and is outside every property stated below, all of which assume `0 < n`. -/
def divide (lst : List α) (n : Nat) : List (List α) :=
  if n = 0 then [] else divideAux lst.length lst n

/-- Sequential submission of a list of chunks: call `submit` on each chunk
in order, stopping at the first error (Python: an uncaught exception from
the request aborts the loop). -/
def dispatchChunks (submit : List α → Except ε β) : List (List α) → Except ε (List β)
  | [] => .ok []
  | c :: cs =>
    match submit c with
    | .error e => .error e
    | .ok b =>
      match dispatchChunks submit cs with
      | .error e => .error e
      | .ok bs => .ok (b :: bs)

/-- The dispatch pattern of `upload_stocks` / `upload_prices` / `main`:
`for chunk in list(divide(records, n)): submit(chunk)`. -/
def dispatch (records : List α) (n : Nat) (submit : List α → Except ε β) :
    Except ε (List β) :=
  dispatchChunks submit (divide records n)

namespace seller

/-- One element of the output of `seller.create_stocks`:
`{"offer_id": ..., "stock": ...}`. -/
structure StockRec where
  offer_id : String
  stock : Int
deriving DecidableEq, Repr

/-- The first loop of `seller.create_stocks` (lines 153-163): walk the feed;
a row whose code is in the working offer-id list emits a stock record and
removes that code from the list (Python `list.remove`: first occurrence).
Returns the emitted records and the final state of the working list;
`none` models the `ValueError` escaping from `int`. -/
def stocksLoop : List FeedRecord → List String → Option (List StockRec × List String)
  | [], offer_ids => some ([], offer_ids)
  | w :: rest, offer_ids =>
    if w.code ∈ offer_ids then
      match normalizeQuantity w.quantity with
      | none => none
      | some q =>
        match stocksLoop rest (offer_ids.erase w.code) with
        | none => none
        | some (st, ids) => some (⟨w.code, q⟩ :: st, ids)
    else stocksLoop rest offer_ids

/-- Embedding of `seller.create_stocks` (lines 142-168): the feed loop followed by the
zero-fill loop over the ids left in the working list.  The second
component is the final state of the (mutated) offer-id list of the caller. -/
def create_stocks (watch_remnants : List FeedRecord) (offer_ids : List String) :
    Option (List StockRec × List String) :=
  match stocksLoop watch_remnants offer_ids with
  | none => none
  | some (st, ids) => some (st ++ ids.map (fun i => ⟨i, 0⟩), ids)

/-- One element of the output of `seller.create_prices` (lines 183-189). -/
structure PriceRec where
  auto_action_enabled : String
  currency_code : String
  offer_id : String
  old_price : String
  price : String
deriving DecidableEq, Repr

/-- Embedding of `seller.create_prices` (lines 170-192): emit one price record per feed
row whose code is in the offer-id list; the list is not mutated. -/
def create_prices : List FeedRecord → List String → List PriceRec
  | [], _ => []
  | w :: rest, offer_ids =>
    if w.code ∈ offer_ids then
      ⟨"UNKNOWN", "RUB", w.code, "0", price_conversion w.price⟩ ::
        create_prices rest offer_ids
    else create_prices rest offer_ids

/-- One item of the Ozon product-list response
(`seller.get_offer_ids` reads only its `offer_id`). -/
structure Product where
  offer_id : String
deriving DecidableEq, Repr

/-- One page of the Ozon `product/list` response: the fields read by
`seller.get_offer_ids` (lines 58-60). -/
structure ProductPage where
  items : List Product
  total : Nat
  last_id : String
deriving Repr

/-- The `while True` loop of `seller.get_offer_ids` (lines 56-62), run
against a response oracle indexed by the call number (the `last_id`
threading is absorbed into the oracle).  Each round extends the
accumulator with the items of the page and exits when the reported
`total` equals the accumulated length.  The fuel bounds the number of
HTTP calls; `none` models non-termination within that bound. -/
def offersLoop (resp : Nat → ProductPage) :
    Nat → Nat → List Product → Option (List Product)
  | 0, _, _ => none
  | fuel + 1, i, acc =>
    let p := resp i
    let acc2 := acc ++ p.items
    if p.total = acc2.length then some acc2
    else offersLoop resp fuel (i + 1) acc2

/-- Embedding of `seller.get_offer_ids` (lines 43-65): run the pagination loop from an
empty accumulator and project `offer_id` from each collected product. -/
def get_offer_ids (resp : Nat → ProductPage) (fuel : Nat) : Option (List String) :=
  (offersLoop resp fuel 0 []).map (List.map Product.offer_id)

/-- Items delivered by responses `i, i+1, ..., i+n-1`, concatenated. -/
def offersAccumFrom (resp : Nat → ProductPage) (i n : Nat) : List Product :=
  (List.range n).flatMap (fun j => (resp (i + j)).items)

/-- Items accumulated by `seller.get_offer_ids` after processing responses
`0..k` inclusive. -/
def offersAccum (resp : Nat → ProductPage) (k : Nat) : List Product :=
  offersAccumFrom resp 0 (k + 1)

/-- The stop condition of the `seller.get_offer_ids` loop at round `k`: the
`total` reported by page `k` equals the number of items accumulated
through page `k`. -/
def offersStop (resp : Nat → ProductPage) (k : Nat) : Prop :=
  (resp k).total = (offersAccum resp k).length

/-- The stock-batch path of `seller.upload_stocks` (line 251) and of
`seller.main` (line 267): `list(divide(stocks, 100))`. -/
def stock_batches (stocks : List StockRec) : List (List StockRec) :=
  divide stocks 100

/-- The price-batch path of `seller.upload_prices` (line 234):
`list(divide(prices, 1000))`. -/
def upload_price_batches (prices : List PriceRec) : List (List PriceRec) :=
  divide prices 1000

/-- The price-batch path of `seller.main` (line 272):
`list(divide(prices, 900))`. -/
def main_price_batches (prices : List PriceRec) : List (List PriceRec) :=
  divide prices 900

/-- The data flow of `seller.main` (lines 262-273) restricted to what it
feeds the price endpoint: `create_stocks` drains the very `offer_ids`
list that is then passed to `create_prices`. -/
def main_prices (watch_remnants : List FeedRecord) (offer_ids : List String) :
    Option (List PriceRec) :=
  match create_stocks watch_remnants offer_ids with
  | none => none
  | some (_, ids) => some (create_prices watch_remnants ids)

end seller

namespace market

/-- One element of the `items` array of a Yandex stock record
(`market.create_stocks`, line 124). -/
structure StockItem where
  count : Int
  type : String
  updatedAt : String
deriving DecidableEq, Repr

/-- One element of the output of `market.create_stocks` (lines 121-125). -/
structure StockRec where
  sku : String
  warehouseId : String
  items : List StockItem
deriving DecidableEq, Repr

/-- The feed loop of `market.create_stocks` (lines 117-126), with the
`utcnow`-derived timestamp passed in as `date`.  Same matching and
mutation discipline as the seller variant; same quantity normalization. -/
def stocksLoop (warehouse_id date : String) :
    List FeedRecord → List String → Option (List StockRec × List String)
  | [], offer_ids => some ([], offer_ids)
  | w :: rest, offer_ids =>
    if w.code ∈ offer_ids then
      match normalizeQuantity w.quantity with
      | none => none
      | some q =>
        match stocksLoop warehouse_id date rest (offer_ids.erase w.code) with
        | none => none
        | some (st, ids) =>
          some (⟨w.code, warehouse_id, [⟨q, "FIT", date⟩]⟩ :: st, ids)
    else stocksLoop warehouse_id date rest offer_ids

/-- Embedding of `market.create_stocks` (lines 104-133): feed loop then zero-fill of the
ids remaining in the working list; returns the records and the final
state of the offer-id list of the caller. -/
def create_stocks (watch_remnants : List FeedRecord) (offer_ids : List String)
    (warehouse_id date : String) : Option (List StockRec × List String) :=
  match stocksLoop warehouse_id date watch_remnants offer_ids with
  | none => none
  | some (st, ids) =>
    some (st ++ ids.map (fun i => ⟨i, warehouse_id, [⟨0, "FIT", date⟩]⟩), ids)

/-- The `price` object of a Yandex price record (lines 151-154). -/
structure PriceVal where
  value : Int
  currencyId : String
deriving DecidableEq, Repr

/-- One element of the output of `market.create_prices` (lines 149-155). -/
structure PriceRec where
  id : String
  price : PriceVal
deriving DecidableEq, Repr

/-- Embedding of `market.create_prices` (lines 135-157): one record per matched feed
row; the value is `int(price_conversion(...))`, whose `ValueError` (raised
exactly when the digit string is empty) is modelled as `none`. -/
def create_prices : List FeedRecord → List String → Option (List PriceRec)
  | [], _ => some []
  | w :: rest, offer_ids =>
    if w.code ∈ offer_ids then
      match pyInt (price_conversion w.price) with
      | none => none
      | some v =>
        match create_prices rest offer_ids with
        | none => none
        | some ps => some (⟨w.code, ⟨v, "RUR"⟩⟩ :: ps)
    else create_prices rest offer_ids

/-- One entry of the Yandex offer-mapping response;
`market.get_offer_ids` reads `entry["offer"]["shopSku"]` (line 102). -/
structure Entry where
  shopSku : String
deriving DecidableEq, Repr

/-- One page of the Yandex `offer-mapping-entries` response: the fields
read by `market.get_offer_ids` (lines 98-99), with
`paging.nextPageToken` absent modelled as the empty string (both are
falsy in the Python `if not page` test). -/
structure EntryPage where
  offerMappingEntries : List Entry
  nextPageToken : String
deriving Repr

/-- The `while True` loop of `market.get_offer_ids` (lines 96-101) against
a call-indexed response oracle: extend the accumulator with the entries
of the page, then exit when the next-page token of the page is empty. -/
def offersLoop (resp : Nat → EntryPage) :
    Nat → Nat → List Entry → Option (List Entry)
  | 0, _, _ => none
  | fuel + 1, i, acc =>
    let p := resp i
    let acc2 := acc ++ p.offerMappingEntries
    if p.nextPageToken = "" then some acc2
    else offersLoop resp fuel (i + 1) acc2

/-- Embedding of `market.get_offer_ids` (lines 84-102): run the pagination loop and
project `shopSku` from each collected entry. -/
def get_offer_ids (resp : Nat → EntryPage) (fuel : Nat) : Option (List String) :=
  (offersLoop resp fuel 0 []).map (List.map Entry.shopSku)

/-- Entries delivered by responses `i, i+1, ..., i+n-1`, concatenated. -/
def offersAccumFrom (resp : Nat → EntryPage) (i n : Nat) : List Entry :=
  (List.range n).flatMap (fun j => (resp (i + j)).offerMappingEntries)

/-- Entries accumulated by `market.get_offer_ids` after processing
responses `0..k` inclusive. -/
def offersAccum (resp : Nat → EntryPage) (k : Nat) : List Entry :=
  offersAccumFrom resp 0 (k + 1)

/-- The stop condition of the `market.get_offer_ids` loop at round `k`:
page `k` carries an empty next-page token. -/
def offersStop (resp : Nat → EntryPage) (k : Nat) : Prop :=
  (resp k).nextPageToken = ""

/-- The stock-batch path of `market.upload_stocks` (line 194) and of
`market.main` (line 215): `list(divide(stocks, 2000))`. -/
def stock_batches (stocks : List StockRec) : List (List StockRec) :=
  divide stocks 2000

/-- The price-batch path of `market.upload_prices` (line 174):
`list(divide(prices, 500))`. -/
def price_batches (prices : List PriceRec) : List (List PriceRec) :=
  divide prices 500

end market

/-! ### Helper lemmas: `pyInt` and `normalizeQuantity` -/

lemma pyInt_of_digits (s : String) (hne : s.toList ≠ [])
    (hdig : s.toList.all Char.isDigit) :
    pyInt s = some (digitsToNat s.toList : Int) := by
  unfold pyInt
  cases h : s.toList with
  | nil => exact absurd h hne
  | cons c ds =>
    rw [h] at hdig
    have hc : c.isDigit := by
      simp only [List.all_cons, Bool.and_eq_true] at hdig
      exact hdig.1
    have h45 : ¬(c = Char.ofNat 45) := by
      intro heq; rw [heq] at hc; exact absurd hc (by decide)
    have h43 : ¬(c = Char.ofNat 43) := by
      intro heq; rw [heq] at hc; exact absurd hc (by decide)
    rw [pyIntChars, if_neg h45, if_neg h43, if_pos hdig]

lemma pyInt_eq_none_of_not_numeric (s : String)
    (h : isNumericToken s = false) : pyInt s = none := by
  unfold isNumericToken at h
  unfold pyInt
  cases hl : s.toList with
  | nil => rfl
  | cons c ds =>
    rw [hl] at h
    rw [isNumericTokenChars] at h
    rw [pyIntChars]
    by_cases h45 : c = Char.ofNat 45
    · have hor : (c = Char.ofNat 45 ∨ c = Char.ofNat 43) := Or.inl h45
      rw [if_pos hor] at h
      rw [if_pos h45, if_neg]
      intro ⟨hne, hall⟩
      rw [Bool.and_eq_false_iff] at h
      rcases h with h | h
      · simp at h; exact hne h
      · rw [hall] at h; exact absurd h (by decide)
    · by_cases h43 : c = Char.ofNat 43
      · have hor : (c = Char.ofNat 45 ∨ c = Char.ofNat 43) := Or.inr h43
        rw [if_pos hor] at h
        rw [if_neg h45, if_pos h43, if_neg]
        intro ⟨hne, hall⟩
        rw [Bool.and_eq_false_iff] at h
        rcases h with h | h
        · simp at h; exact hne h
        · rw [hall] at h; exact absurd h (by decide)
      · have hor : ¬(c = Char.ofNat 45 ∨ c = Char.ofNat 43) := by
          intro hor; rcases hor with h' | h' <;> [exact h45 h'; exact h43 h']
        rw [if_neg hor] at h
        rw [if_neg h45, if_neg h43, if_neg]
        rw [h]
        decide

lemma pyInt_nonneg (s : String) (v : Int)
    (hhead : s.toList.head? ≠ some (Char.ofNat 45))
    (hv : pyInt s = some v) : 0 ≤ v := by
  unfold pyInt at hv
  cases hl : s.toList with
  | nil => rw [hl] at hv; exact absurd hv (by simp [pyIntChars])
  | cons c ds =>
    rw [hl] at hv hhead
    simp only [List.head?_cons, ne_eq, Option.some.injEq] at hhead
    rw [pyIntChars, if_neg hhead] at hv
    by_cases h43 : c = Char.ofNat 43
    · rw [if_pos h43] at hv
      by_cases hcond : ds ≠ [] ∧ ds.all Char.isDigit
      · rw [if_pos hcond] at hv
        obtain rfl : (digitsToNat ds : Int) = v := Option.some.inj hv
        exact Int.ofNat_nonneg _
      · rw [if_neg hcond] at hv; exact absurd hv (by simp)
    · rw [if_neg h43] at hv
      by_cases hcond : (c :: ds).all Char.isDigit = true
      · rw [if_pos hcond] at hv
        obtain rfl : (digitsToNat (c :: ds) : Int) = v := Option.some.inj hv
        exact Int.ofNat_nonneg _
      · rw [if_neg hcond] at hv; exact absurd hv (by simp)

lemma normalizeQuantity_nonneg (t : String) (q : Int)
    (hhead : t.toList.head? ≠ some (Char.ofNat 45))
    (hq : normalizeQuantity t = some q) : 0 ≤ q := by
  unfold normalizeQuantity at hq
  by_cases h10 : t = ">10"
  · rw [if_pos h10] at hq
    obtain rfl : (100 : Int) = q := Option.some.inj hq
    decide
  · rw [if_neg h10] at hq
    by_cases h1 : t = "1"
    · rw [if_pos h1] at hq
      obtain rfl : (0 : Int) = q := Option.some.inj hq
      decide
    · rw [if_neg h1] at hq
      exact pyInt_nonneg t q hhead hq

/-! ### Helper lemmas: `divide` and `dispatch` -/

lemma divideAux_flatten (n : Nat) (hn : 0 < n) :
    ∀ (fuel : Nat) (lst : List α), lst.length ≤ fuel →
    (divideAux fuel lst n).flatten = lst := by
  intro fuel
  induction fuel with
  | zero =>
    intro lst hlen
    have : lst = [] := List.eq_nil_of_length_eq_zero (Nat.le_zero.mp hlen)
    subst this
    simp [divideAux]
  | succ f ih =>
    intro lst hlen
    cases lst with
    | nil => simp [divideAux]
    | cons a as =>
      rw [divideAux, List.flatten_cons]
      rw [ih ((a :: as).drop n)
        (by simp only [List.length_drop, List.length_cons] at hlen ⊢; omega)]
      exact List.take_append_drop n (a :: as)

lemma divideAux_chunk_le (n : Nat) :
    ∀ (fuel : Nat) (lst : List α), ∀ c ∈ divideAux fuel lst n, c.length ≤ n := by
  intro fuel
  induction fuel with
  | zero => intro lst c hc; simp [divideAux] at hc
  | succ f ih =>
    intro lst c hc
    cases lst with
    | nil => simp [divideAux] at hc
    | cons a as =>
      rw [divideAux] at hc
      rcases List.mem_cons.mp hc with h | h
      · subst h; simp
      · exact ih _ c h

lemma divideAux_chunk_ne_nil (n : Nat) (hn : 0 < n) :
    ∀ (fuel : Nat) (lst : List α), ∀ c ∈ divideAux fuel lst n, c ≠ [] := by
  intro fuel
  induction fuel with
  | zero => intro lst c hc; simp [divideAux] at hc
  | succ f ih =>
    intro lst c hc
    cases lst with
    | nil => simp [divideAux] at hc
    | cons a as =>
      rw [divideAux] at hc
      rcases List.mem_cons.mp hc with h | h
      · subst h
        simp [List.take_eq_nil_iff]
        omega
      · exact ih _ c h

lemma divide_flatten (lst : List α) (n : Nat) (hn : 0 < n) :
    (divide lst n).flatten = lst := by
  unfold divide
  rw [if_neg (Nat.pos_iff_ne_zero.mp hn)]
  exact divideAux_flatten n hn lst.length lst (Nat.le_refl _)

lemma divide_chunk_le (lst : List α) (n : Nat) :
    ∀ c ∈ divide lst n, c.length ≤ n := by
  unfold divide
  by_cases h : n = 0
  · simp [h]
  · rw [if_neg h]; exact divideAux_chunk_le n lst.length lst

lemma divide_chunk_ne_nil (lst : List α) (n : Nat) (hn : 0 < n) :
    ∀ c ∈ divide lst n, c ≠ [] := by
  unfold divide
  rw [if_neg (Nat.pos_iff_ne_zero.mp hn)]
  exact divideAux_chunk_ne_nil n hn lst.length lst

lemma divideAux_nil (fuel n : Nat) : divideAux fuel ([] : List α) n = [] := by
  cases fuel <;> rfl

lemma divideAux_cons_step (fuel : Nat) (lst : List α) (n : Nat) (hne : lst ≠ []) :
    divideAux (fuel + 1) lst n = lst.take n :: divideAux fuel (lst.drop n) n := by
  cases lst with
  | nil => exact absurd rfl hne
  | cons a as => rfl

lemma divideAux_fuel_irrel (n : Nat) (hn : 0 < n) :
    ∀ (fuel fuel' : Nat) (lst : List α), lst.length ≤ fuel → lst.length ≤ fuel' →
    divideAux fuel lst n = divideAux fuel' lst n := by
  intro fuel
  induction fuel with
  | zero =>
    intro fuel' lst hf hf'
    obtain rfl : lst = [] := List.eq_nil_of_length_eq_zero (Nat.le_zero.mp hf)
    rw [divideAux_nil, divideAux_nil]
  | succ f ih =>
    intro fuel' lst hf hf'
    cases lst with
    | nil => rw [divideAux_nil, divideAux_nil]
    | cons a as =>
      obtain ⟨g, rfl⟩ : ∃ g, fuel' = g + 1 :=
        ⟨fuel' - 1, by simp at hf'; omega⟩
      rw [divideAux_cons_step f _ n (by simp), divideAux_cons_step g _ n (by simp)]
      have hlen : ((a :: as).drop n).length ≤ f := by
        simp only [List.length_drop, List.length_cons] at hf ⊢
        omega
      have hlen' : ((a :: as).drop n).length ≤ g := by
        simp only [List.length_drop, List.length_cons] at hf' ⊢
        omega
      rw [ih g ((a :: as).drop n) hlen hlen']

lemma divide_step (lst : List α) (n : Nat) (hn : 0 < n) (hlong : n < lst.length) :
    divide lst n = lst.take n :: divide (lst.drop n) n := by
  unfold divide
  rw [if_neg (Nat.pos_iff_ne_zero.mp hn), if_neg (Nat.pos_iff_ne_zero.mp hn)]
  obtain ⟨m, hm⟩ : ∃ m, lst.length = m + 1 := ⟨lst.length - 1, by omega⟩
  rw [hm]
  have hne : lst ≠ [] := by
    intro h; rw [h] at hm; exact absurd hm (by simp)
  rw [divideAux_cons_step m lst n hne]
  congr 1
  apply divideAux_fuel_irrel n hn
  · simp only [List.length_drop]
    omega
  · exact Nat.le_refl _

lemma divide_small (lst : List α) (n : Nat) (hn : 0 < n)
    (hle : lst.length ≤ n) (hne : lst ≠ []) : divide lst n = [lst] := by
  unfold divide
  rw [if_neg (Nat.pos_iff_ne_zero.mp hn)]
  obtain ⟨m, hm⟩ : ∃ m, lst.length = m + 1 := by
    cases lst with
    | nil => exact absurd rfl hne
    | cons a as => exact ⟨as.length, by simp⟩
  rw [hm, divideAux_cons_step m lst n hne]
  rw [List.take_of_length_le hle, List.drop_eq_nil_of_le hle, divideAux_nil]

lemma dispatchChunks_error (submit : List α → Except ε β) (e : ε) :
    ∀ (pre : List (List α)) (c : List α) (post : List (List α)),
    (∀ p ∈ pre, ∃ b, submit p = Except.ok b) →
    submit c = Except.error e →
    dispatchChunks submit (pre ++ c :: post) = Except.error e := by
  intro pre
  induction pre with
  | nil =>
    intro c post _ hc
    rw [List.nil_append, dispatchChunks, hc]
  | cons p ps ih =>
    intro c post hok hc
    obtain ⟨b, hb⟩ := hok p (List.mem_cons_self p ps)
    rw [List.cons_append, dispatchChunks, hb]
    rw [ih c post (fun q hq => hok q (List.mem_cons_of_mem p hq)) hc]

lemma dispatchChunks_ok (submit : List α → Except ε β) :
    ∀ (cs : List (List α)),
    (∀ c ∈ cs, ∃ b, submit c = Except.ok b) →
    ∃ bs, dispatchChunks submit cs = Except.ok bs ∧ bs.length = cs.length := by
  intro cs
  induction cs with
  | nil => intro _; exact ⟨[], rfl, rfl⟩
  | cons c cs ih =>
    intro hok
    obtain ⟨b, hb⟩ := hok c (List.mem_cons_self c cs)
    obtain ⟨bs, hbs, hlen⟩ := ih (fun q hq => hok q (List.mem_cons_of_mem c hq))
    refine ⟨b :: bs, ?_, by simp [hlen]⟩
    rw [dispatchChunks, hb, hbs]

/-! ### Helper lemmas: the seller reconciliation loop -/

namespace seller

lemma stocksLoop_perm (F : List FeedRecord) :
    ∀ (W : List String) (st : List StockRec) (ids : List String),
    stocksLoop F W = some (st, ids) →
    (st.map StockRec.offer_id ++ ids).Perm W := by
  induction F with
  | nil =>
    intro W st ids h
    rw [stocksLoop] at h
    simp only [Option.some.injEq, Prod.mk.injEq] at h
    obtain ⟨rfl, rfl⟩ := h
    simp
  | cons w rest ih =>
    intro W st ids h
    rw [stocksLoop] at h
    by_cases hc : w.code ∈ W
    · rw [if_pos hc] at h
      cases hq : normalizeQuantity w.quantity with
      | none => rw [hq] at h; exact absurd h (by simp)
      | some q =>
        rw [hq] at h
        cases hr : stocksLoop rest (W.erase w.code) with
        | none => rw [hr] at h; exact absurd h (by simp)
        | some p =>
          obtain ⟨st', ids'⟩ := p
          rw [hr] at h
          simp only [Option.some.injEq, Prod.mk.injEq] at h
          obtain ⟨rfl, rfl⟩ := h
          have hih := ih (W.erase w.code) st' ids' hr
          simp only [List.map_cons, List.cons_append]
          exact (hih.cons w.code).trans (List.perm_cons_erase hc).symm
    · rw [if_neg hc] at h
      exact ih W st ids h

lemma stocksLoop_sublist (F : List FeedRecord) :
    ∀ (W : List String) (st : List StockRec) (ids : List String),
    stocksLoop F W = some (st, ids) → ids.Sublist W := by
  induction F with
  | nil =>
    intro W st ids h
    rw [stocksLoop] at h
    simp only [Option.some.injEq, Prod.mk.injEq] at h
    obtain ⟨rfl, rfl⟩ := h
    exact List.Sublist.refl W
  | cons w rest ih =>
    intro W st ids h
    rw [stocksLoop] at h
    by_cases hc : w.code ∈ W
    · rw [if_pos hc] at h
      cases hq : normalizeQuantity w.quantity with
      | none => rw [hq] at h; exact absurd h (by simp)
      | some q =>
        rw [hq] at h
        cases hr : stocksLoop rest (W.erase w.code) with
        | none => rw [hr] at h; exact absurd h (by simp)
        | some p =>
          obtain ⟨st', ids'⟩ := p
          rw [hr] at h
          simp only [Option.some.injEq, Prod.mk.injEq] at h
          obtain ⟨rfl, rfl⟩ := h
          exact (ih (W.erase w.code) st' ids' hr).trans (List.erase_sublist w.code W)
    · rw [if_neg hc] at h
      exact ih W st ids h

lemma stocksLoop_unmatched (F : List FeedRecord) :
    ∀ (W : List String) (st : List StockRec) (ids : List String),
    W.Nodup → stocksLoop F W = some (st, ids) →
    ∀ x ∈ ids, ∀ v ∈ F, v.code ≠ x := by
  induction F with
  | nil => intro W st ids _ _ x _ v hv; exact absurd hv (List.not_mem_nil v)
  | cons w rest ih =>
    intro W st ids hnd h x hx v hv
    rw [stocksLoop] at h
    by_cases hc : w.code ∈ W
    · rw [if_pos hc] at h
      cases hq : normalizeQuantity w.quantity with
      | none => rw [hq] at h; exact absurd h (by simp)
      | some q =>
        rw [hq] at h
        cases hr : stocksLoop rest (W.erase w.code) with
        | none => rw [hr] at h; exact absurd h (by simp)
        | some p =>
          obtain ⟨st', ids'⟩ := p
          rw [hr] at h
          simp only [Option.some.injEq, Prod.mk.injEq] at h
          obtain ⟨rfl, rfl⟩ := h
          have hsub := stocksLoop_sublist rest (W.erase w.code) st' ids' hr
          rcases List.mem_cons.mp hv with rfl | hv
          · have hxe : x ∈ W.erase v.code := hsub.subset hx
            exact fun hcx => ((List.Nodup.mem_erase_iff hnd).mp hxe).1 hcx.symm
          · exact ih (W.erase w.code) st' ids' (hnd.erase w.code) hr x hx v hv
    · rw [if_neg hc] at h
      rcases List.mem_cons.mp hv with rfl | hv
      · have hxW : x ∈ W := (stocksLoop_sublist rest W st ids h).subset hx
        exact fun hcx => hc (hcx ▸ hxW)
      · exact ih W st ids hnd h x hx v hv

lemma stocksLoop_matched (F : List FeedRecord) :
    ∀ (W : List String) (st : List StockRec) (ids : List String),
    stocksLoop F W = some (st, ids) →
    ∀ x ∈ W, x ∉ ids → ∃ v ∈ F, v.code = x := by
  induction F with
  | nil =>
    intro W st ids h x hxW hxids
    rw [stocksLoop] at h
    simp only [Option.some.injEq, Prod.mk.injEq] at h
    obtain ⟨rfl, rfl⟩ := h
    exact absurd hxW hxids
  | cons w rest ih =>
    intro W st ids h x hxW hxids
    rw [stocksLoop] at h
    by_cases hc : w.code ∈ W
    · rw [if_pos hc] at h
      cases hq : normalizeQuantity w.quantity with
      | none => rw [hq] at h; exact absurd h (by simp)
      | some q =>
        rw [hq] at h
        cases hr : stocksLoop rest (W.erase w.code) with
        | none => rw [hr] at h; exact absurd h (by simp)
        | some p =>
          obtain ⟨st', ids'⟩ := p
          rw [hr] at h
          simp only [Option.some.injEq, Prod.mk.injEq] at h
          obtain ⟨rfl, rfl⟩ := h
          by_cases hxw : x = w.code
          · exact ⟨w, List.mem_cons_self w rest, hxw.symm⟩
          · obtain ⟨v, hv, hvc⟩ :=
              ih (W.erase w.code) st' ids' hr x
                ((List.mem_erase_of_ne hxw).mpr hxW) hxids
            exact ⟨v, List.mem_cons_of_mem w hv, hvc⟩
    · rw [if_neg hc] at h
      by_cases hxw : x = w.code
      · exact ⟨w, List.mem_cons_self w rest, hxw.symm⟩
      · obtain ⟨v, hv, hvc⟩ := ih W st ids h x hxW hxids
        exact ⟨v, List.mem_cons_of_mem w hv, hvc⟩

lemma stocksLoop_source (F : List FeedRecord) :
    ∀ (W : List String) (st : List StockRec) (ids : List String),
    W.Nodup → stocksLoop F W = some (st, ids) →
    ∀ r ∈ st, ∃ v, F.find? (fun u => u.code == r.offer_id) = some v ∧
      normalizeQuantity v.quantity = some r.stock := by
  induction F with
  | nil =>
    intro W st ids _ h r hr
    rw [stocksLoop] at h
    simp only [Option.some.injEq, Prod.mk.injEq] at h
    obtain ⟨rfl, rfl⟩ := h
    exact absurd hr (List.not_mem_nil r)
  | cons w rest ih =>
    intro W st ids hnd h r hrst
    rw [stocksLoop] at h
    by_cases hc : w.code ∈ W
    · rw [if_pos hc] at h
      cases hq : normalizeQuantity w.quantity with
      | none => rw [hq] at h; exact absurd h (by simp)
      | some q =>
        rw [hq] at h
        cases hr : stocksLoop rest (W.erase w.code) with
        | none => rw [hr] at h; exact absurd h (by simp)
        | some p =>
          obtain ⟨st', ids'⟩ := p
          rw [hr] at h
          simp only [Option.some.injEq, Prod.mk.injEq] at h
          obtain ⟨rfl, rfl⟩ := h
          rcases List.mem_cons.mp hrst with rfl | hrst
          · refine ⟨w, ?_, hq⟩
            exact List.find?_cons_of_pos rest (by simp)
          · have hperm := stocksLoop_perm rest (W.erase w.code) st' ids' hr
            have hrid : r.offer_id ∈ W.erase w.code := by
              apply hperm.subset
              exact List.mem_append_left ids' (List.mem_map_of_mem StockRec.offer_id hrst)
            have hne : w.code ≠ r.offer_id :=
              fun he => ((List.Nodup.mem_erase_iff hnd).mp hrid).1 he.symm
            obtain ⟨v, hv, hvq⟩ :=
              ih (W.erase w.code) st' ids' (hnd.erase w.code) hr r hrst
            refine ⟨v, ?_, hvq⟩
            rw [List.find?_cons_of_neg rest (by simp [hne]), hv]
    · rw [if_neg hc] at h
      have hperm := stocksLoop_perm rest W st ids h
      have hrid : r.offer_id ∈ W := by
        apply hperm.subset
        exact List.mem_append_left ids (List.mem_map_of_mem StockRec.offer_id hrst)
      have hne : w.code ≠ r.offer_id := fun he => hc (he ▸ hrid)
      obtain ⟨v, hv, hvq⟩ := ih W st ids hnd h r hrst
      refine ⟨v, ?_, hvq⟩
      rw [List.find?_cons_of_neg rest (by simp [hne]), hv]

lemma create_stocks_inv (F : List FeedRecord) (S : List String)
    (st : List StockRec) (ids : List String)
    (h : create_stocks F S = some (st, ids)) :
    ∃ st1, stocksLoop F S = some (st1, ids) ∧
      st = st1 ++ ids.map (fun i => ⟨i, 0⟩) := by
  unfold create_stocks at h
  cases hr : stocksLoop F S with
  | none => rw [hr] at h; exact absurd h (by simp)
  | some p =>
    obtain ⟨st1, ids1⟩ := p
    rw [hr] at h
    simp only [Option.some.injEq, Prod.mk.injEq] at h
    obtain ⟨rfl, rfl⟩ := h
    exact ⟨st1, rfl, rfl⟩

lemma create_prices_nil_of_disjoint (F : List FeedRecord) (S : List String)
    (h : ∀ v ∈ F, v.code ∉ S) : create_prices F S = [] := by
  induction F with
  | nil => rw [create_prices]
  | cons w rest ih =>
    rw [create_prices, if_neg (h w (List.mem_cons_self w rest))]
    exact ih (fun v hv => h v (List.mem_cons_of_mem w hv))

end seller

/-! ### Helper lemmas: the market reconciliation loop -/

namespace market

lemma stocksLoop_perm_m (wid date : String) (F : List FeedRecord) :
    ∀ (W : List String) (st : List StockRec) (ids : List String),
    stocksLoop wid date F W = some (st, ids) →
    (st.map StockRec.sku ++ ids).Perm W := by
  induction F with
  | nil =>
    intro W st ids h
    rw [stocksLoop] at h
    simp only [Option.some.injEq, Prod.mk.injEq] at h
    obtain ⟨rfl, rfl⟩ := h
    simp
  | cons w rest ih =>
    intro W st ids h
    rw [stocksLoop] at h
    by_cases hc : w.code ∈ W
    · rw [if_pos hc] at h
      cases hq : normalizeQuantity w.quantity with
      | none => rw [hq] at h; exact absurd h (by simp)
      | some q =>
        rw [hq] at h
        cases hr : stocksLoop wid date rest (W.erase w.code) with
        | none => rw [hr] at h; exact absurd h (by simp)
        | some p =>
          obtain ⟨st', ids'⟩ := p
          rw [hr] at h
          simp only [Option.some.injEq, Prod.mk.injEq] at h
          obtain ⟨rfl, rfl⟩ := h
          have hih := ih (W.erase w.code) st' ids' hr
          simp only [List.map_cons, List.cons_append]
          exact (hih.cons w.code).trans (List.perm_cons_erase hc).symm
    · rw [if_neg hc] at h
      exact ih W st ids h

lemma stocksLoop_sublist_m (wid date : String) (F : List FeedRecord) :
    ∀ (W : List String) (st : List StockRec) (ids : List String),
    stocksLoop wid date F W = some (st, ids) → ids.Sublist W := by
  induction F with
  | nil =>
    intro W st ids h
    rw [stocksLoop] at h
    simp only [Option.some.injEq, Prod.mk.injEq] at h
    obtain ⟨rfl, rfl⟩ := h
    exact List.Sublist.refl W
  | cons w rest ih =>
    intro W st ids h
    rw [stocksLoop] at h
    by_cases hc : w.code ∈ W
    · rw [if_pos hc] at h
      cases hq : normalizeQuantity w.quantity with
      | none => rw [hq] at h; exact absurd h (by simp)
      | some q =>
        rw [hq] at h
        cases hr : stocksLoop wid date rest (W.erase w.code) with
        | none => rw [hr] at h; exact absurd h (by simp)
        | some p =>
          obtain ⟨st', ids'⟩ := p
          rw [hr] at h
          simp only [Option.some.injEq, Prod.mk.injEq] at h
          obtain ⟨rfl, rfl⟩ := h
          exact (ih (W.erase w.code) st' ids' hr).trans (List.erase_sublist w.code W)
    · rw [if_neg hc] at h
      exact ih W st ids h

lemma stocksLoop_unmatched_m (wid date : String) (F : List FeedRecord) :
    ∀ (W : List String) (st : List StockRec) (ids : List String),
    W.Nodup → stocksLoop wid date F W = some (st, ids) →
    ∀ x ∈ ids, ∀ v ∈ F, v.code ≠ x := by
  induction F with
  | nil => intro W st ids _ _ x _ v hv; exact absurd hv (List.not_mem_nil v)
  | cons w rest ih =>
    intro W st ids hnd h x hx v hv
    rw [stocksLoop] at h
    by_cases hc : w.code ∈ W
    · rw [if_pos hc] at h
      cases hq : normalizeQuantity w.quantity with
      | none => rw [hq] at h; exact absurd h (by simp)
      | some q =>
        rw [hq] at h
        cases hr : stocksLoop wid date rest (W.erase w.code) with
        | none => rw [hr] at h; exact absurd h (by simp)
        | some p =>
          obtain ⟨st', ids'⟩ := p
          rw [hr] at h
          simp only [Option.some.injEq, Prod.mk.injEq] at h
          obtain ⟨rfl, rfl⟩ := h
          have hsub := stocksLoop_sublist_m wid date rest (W.erase w.code) st' ids' hr
          rcases List.mem_cons.mp hv with rfl | hv
          · have hxe : x ∈ W.erase v.code := hsub.subset hx
            exact fun hcx => ((List.Nodup.mem_erase_iff hnd).mp hxe).1 hcx.symm
          · exact ih (W.erase w.code) st' ids' (hnd.erase w.code) hr x hx v hv
    · rw [if_neg hc] at h
      rcases List.mem_cons.mp hv with rfl | hv
      · have hxW : x ∈ W := (stocksLoop_sublist_m wid date rest W st ids h).subset hx
        exact fun hcx => hc (hcx ▸ hxW)
      · exact ih W st ids hnd h x hx v hv

lemma create_stocks_inv_m (F : List FeedRecord) (S : List String)
    (wid date : String) (st : List StockRec) (ids : List String)
    (h : create_stocks F S wid date = some (st, ids)) :
    ∃ st1, stocksLoop wid date F S = some (st1, ids) ∧
      st = st1 ++ ids.map (fun i => ⟨i, wid, [⟨0, "FIT", date⟩]⟩) := by
  unfold create_stocks at h
  cases hr : stocksLoop wid date F S with
  | none => rw [hr] at h; exact absurd h (by simp)
  | some p =>
    obtain ⟨st1, ids1⟩ := p
    rw [hr] at h
    simp only [Option.some.injEq, Prod.mk.injEq] at h
    obtain ⟨rfl, rfl⟩ := h
    exact ⟨st1, rfl, rfl⟩

end market

/-! ### Helper lemmas: `create_stocks` output shape -/

namespace seller

lemma zero_fill_map (ids : List String) :
    (ids.map fun i => (⟨i, 0⟩ : StockRec)).map StockRec.offer_id = ids := by
  rw [List.map_map]
  have hcomp : (StockRec.offer_id ∘ fun i => (⟨i, 0⟩ : StockRec)) = id := rfl
  rw [hcomp, List.map_id]

lemma create_stocks_perm (F : List FeedRecord) (S : List String)
    (st : List StockRec) (ids : List String)
    (h : create_stocks F S = some (st, ids)) :
    (st.map StockRec.offer_id).Perm S := by
  obtain ⟨st1, hloop, rfl⟩ := create_stocks_inv F S st ids h
  rw [List.map_append, zero_fill_map]
  exact stocksLoop_perm F S st1 ids hloop

end seller

namespace market

lemma zero_fill_map_m (wid date : String) (ids : List String) :
    (ids.map fun i =>
      (⟨i, wid, [⟨0, "FIT", date⟩]⟩ : StockRec)).map StockRec.sku = ids := by
  rw [List.map_map]
  have hcomp :
      (StockRec.sku ∘ fun i => (⟨i, wid, [⟨0, "FIT", date⟩]⟩ : StockRec)) = id := rfl
  rw [hcomp, List.map_id]

lemma create_stocks_perm_m (F : List FeedRecord) (S : List String)
    (wid date : String) (st : List StockRec) (ids : List String)
    (h : create_stocks F S wid date = some (st, ids)) :
    (st.map StockRec.sku).Perm S := by
  obtain ⟨st1, hloop, rfl⟩ := create_stocks_inv_m F S wid date st ids h
  rw [List.map_append, zero_fill_map_m]
  exact stocksLoop_perm_m wid date F S st1 ids hloop

lemma stocksLoop_matched_m (wid date : String) (F : List FeedRecord) :
    ∀ (W : List String) (st : List StockRec) (ids : List String),
    stocksLoop wid date F W = some (st, ids) →
    ∀ x ∈ W, x ∉ ids → ∃ v ∈ F, v.code = x := by
  induction F with
  | nil =>
    intro W st ids h x hxW hxids
    rw [stocksLoop] at h
    simp only [Option.some.injEq, Prod.mk.injEq] at h
    obtain ⟨rfl, rfl⟩ := h
    exact absurd hxW hxids
  | cons w rest ih =>
    intro W st ids h x hxW hxids
    rw [stocksLoop] at h
    by_cases hc : w.code ∈ W
    · rw [if_pos hc] at h
      cases hq : normalizeQuantity w.quantity with
      | none => rw [hq] at h; exact absurd h (by simp)
      | some q =>
        rw [hq] at h
        cases hr : stocksLoop wid date rest (W.erase w.code) with
        | none => rw [hr] at h; exact absurd h (by simp)
        | some p =>
          obtain ⟨st', ids'⟩ := p
          rw [hr] at h
          simp only [Option.some.injEq, Prod.mk.injEq] at h
          obtain ⟨rfl, rfl⟩ := h
          by_cases hxw : x = w.code
          · exact ⟨w, List.mem_cons_self w rest, hxw.symm⟩
          · obtain ⟨v, hv, hvc⟩ :=
              ih (W.erase w.code) st' ids' hr x
                ((List.mem_erase_of_ne hxw).mpr hxW) hxids
            exact ⟨v, List.mem_cons_of_mem w hv, hvc⟩
    · rw [if_neg hc] at h
      by_cases hxw : x = w.code
      · exact ⟨w, List.mem_cons_self w rest, hxw.symm⟩
      · obtain ⟨v, hv, hvc⟩ := ih W st ids h x hxW hxids
        exact ⟨v, List.mem_cons_of_mem w hv, hvc⟩

end market

/-! ### Helper lemmas: the two pagination loops -/

namespace seller

lemma offersAccumFrom_zero (resp : Nat → ProductPage) (i : Nat) :
    offersAccumFrom resp i 0 = [] := by
  simp [offersAccumFrom]

lemma offersAccumFrom_succ (resp : Nat → ProductPage) (i n : Nat) :
    offersAccumFrom resp i (n + 1) =
      (resp i).items ++ offersAccumFrom resp (i + 1) n := by
  unfold offersAccumFrom
  rw [List.range_succ_eq_map, List.flatMap_cons, List.flatMap_map]
  simp only [Nat.succ_eq_add_one, Nat.add_zero]
  have h2 : (fun a => (resp (i + (a + 1))).items) =
      (fun j => (resp (i + 1 + j)).items) := by
    funext a
    have heq : i + (a + 1) = i + 1 + a := by omega
    rw [heq]
  rw [h2]

lemma offersLoop_run (resp : Nat → ProductPage) :
    ∀ (k i : Nat) (acc : List Product),
    (resp (i + k)).total = acc.length + (offersAccumFrom resp i (k + 1)).length →
    (∀ j, j < k →
      (resp (i + j)).total ≠ acc.length + (offersAccumFrom resp i (j + 1)).length) →
    (∀ fuel, k < fuel →
        offersLoop resp fuel i acc = some (acc ++ offersAccumFrom resp i (k + 1)))
      ∧ (∀ fuel, fuel ≤ k → offersLoop resp fuel i acc = none) := by
  intro k
  induction k with
  | zero =>
    intro i acc hstop hmin
    rw [Nat.add_zero] at hstop
    have h' : (resp i).total = (acc ++ (resp i).items).length := by
      rw [List.length_append]
      rw [offersAccumFrom_succ, offersAccumFrom_zero, List.append_nil] at hstop
      exact hstop
    constructor
    · intro fuel hf
      obtain ⟨f, rfl⟩ : ∃ f, fuel = f + 1 := ⟨fuel - 1, by omega⟩
      simp only [offersLoop]
      rw [if_pos h']
      rw [offersAccumFrom_succ, offersAccumFrom_zero, List.append_nil]
    · intro fuel hf
      obtain rfl : fuel = 0 := Nat.le_zero.mp hf
      rfl
  | succ k ih =>
    intro i acc hstop hmin
    have hne : ¬((resp i).total = (acc ++ (resp i).items).length) := by
      have h0 := hmin 0 (Nat.succ_pos k)
      rw [Nat.add_zero] at h0
      rw [offersAccumFrom_succ, offersAccumFrom_zero, List.append_nil] at h0
      rw [List.length_append]
      exact h0
    have hstop' : (resp ((i + 1) + k)).total =
        (acc ++ (resp i).items).length + (offersAccumFrom resp (i + 1) (k + 1)).length := by
      have heq : (i + 1) + k = i + (k + 1) := by omega
      rw [heq]
      rw [offersAccumFrom_succ, List.length_append] at hstop
      rw [List.length_append]
      omega
    have hmin' : ∀ j, j < k → (resp ((i + 1) + j)).total ≠
        (acc ++ (resp i).items).length + (offersAccumFrom resp (i + 1) (j + 1)).length := by
      intro j hj
      have h0 := hmin (j + 1) (by omega)
      have heq : (i + 1) + j = i + (j + 1) := by omega
      rw [heq]
      rw [offersAccumFrom_succ, List.length_append] at h0
      intro hEq
      apply h0
      rw [List.length_append] at hEq
      omega
    obtain ⟨ihsome, ihnone⟩ := ih (i + 1) (acc ++ (resp i).items) hstop' hmin'
    constructor
    · intro fuel hf
      obtain ⟨f, rfl⟩ : ∃ f, fuel = f + 1 := ⟨fuel - 1, by omega⟩
      simp only [offersLoop]
      rw [if_neg hne]
      rw [ihsome f (by omega)]
      conv_rhs => rw [offersAccumFrom_succ]
      simp [List.append_assoc]
    · intro fuel hf
      cases fuel with
      | zero => rfl
      | succ f =>
        simp only [offersLoop]
        rw [if_neg hne]
        exact ihnone f (by omega)

end seller

namespace market

lemma offersAccumFrom_zero_m (resp : Nat → EntryPage) (i : Nat) :
    offersAccumFrom resp i 0 = [] := by
  simp [offersAccumFrom]

lemma offersAccumFrom_succ_m (resp : Nat → EntryPage) (i n : Nat) :
    offersAccumFrom resp i (n + 1) =
      (resp i).offerMappingEntries ++ offersAccumFrom resp (i + 1) n := by
  unfold offersAccumFrom
  rw [List.range_succ_eq_map, List.flatMap_cons, List.flatMap_map]
  simp only [Nat.succ_eq_add_one, Nat.add_zero]
  have h2 : (fun a => (resp (i + (a + 1))).offerMappingEntries) =
      (fun j => (resp (i + 1 + j)).offerMappingEntries) := by
    funext a
    have heq : i + (a + 1) = i + 1 + a := by omega
    rw [heq]
  rw [h2]

lemma offersLoop_run_m (resp : Nat → EntryPage) :
    ∀ (k i : Nat) (acc : List Entry),
    (resp (i + k)).nextPageToken = "" →
    (∀ j, j < k → (resp (i + j)).nextPageToken ≠ "") →
    (∀ fuel, k < fuel →
        offersLoop resp fuel i acc = some (acc ++ offersAccumFrom resp i (k + 1)))
      ∧ (∀ fuel, fuel ≤ k → offersLoop resp fuel i acc = none) := by
  intro k
  induction k with
  | zero =>
    intro i acc hstop hmin
    rw [Nat.add_zero] at hstop
    constructor
    · intro fuel hf
      obtain ⟨f, rfl⟩ : ∃ f, fuel = f + 1 := ⟨fuel - 1, by omega⟩
      simp only [offersLoop]
      rw [if_pos hstop]
      rw [offersAccumFrom_succ_m, offersAccumFrom_zero_m, List.append_nil]
    · intro fuel hf
      obtain rfl : fuel = 0 := Nat.le_zero.mp hf
      rfl
  | succ k ih =>
    intro i acc hstop hmin
    have hne : ¬((resp i).nextPageToken = "") := by
      have h0 := hmin 0 (Nat.succ_pos k)
      rw [Nat.add_zero] at h0
      exact h0
    have hstop' : (resp ((i + 1) + k)).nextPageToken = "" := by
      have heq : (i + 1) + k = i + (k + 1) := by omega
      rw [heq]
      exact hstop
    have hmin' : ∀ j, j < k → (resp ((i + 1) + j)).nextPageToken ≠ "" := by
      intro j hj
      have heq : (i + 1) + j = i + (j + 1) := by omega
      rw [heq]
      exact hmin (j + 1) (by omega)
    obtain ⟨ihsome, ihnone⟩ :=
      ih (i + 1) (acc ++ (resp i).offerMappingEntries) hstop' hmin'
    constructor
    · intro fuel hf
      obtain ⟨f, rfl⟩ : ∃ f, fuel = f + 1 := ⟨fuel - 1, by omega⟩
      simp only [offersLoop]
      rw [if_neg hne]
      rw [ihsome f (by omega)]
      conv_rhs => rw [offersAccumFrom_succ_m]
      simp [List.append_assoc]
    · intro fuel hf
      cases fuel with
      | zero => rfl
      | succ f =>
        simp only [offersLoop]
        rw [if_neg hne]
        exact ihnone f (by omega)

end market

/-! ## Claim theorems -/

/-- C1: for every duplicate-free offer-id list `S` and every feed `F`, when
`create_stocks` completes (on either channel) the offer ids of its output,
viewed as a collection, are exactly a permutation of `S`: every id of `S`
appears in exactly one output record and no record carries an id outside
`S`. -/
theorem claim_C1_stock_output_ids (F : List FeedRecord) (S : List String)
    (st : List seller.StockRec) (ids : List String)
    (mst : List market.StockRec) (mids : List String) (wid date : String)
    (hnd : S.Nodup)
    (h1 : seller.create_stocks F S = some (st, ids))
    (h2 : market.create_stocks F S wid date = some (mst, mids)) :
    ((st.map seller.StockRec.offer_id).Perm S
      ∧ (∀ x ∈ S, (st.map seller.StockRec.offer_id).count x = 1)
      ∧ (∀ r ∈ st, r.offer_id ∈ S))
    ∧ ((mst.map market.StockRec.sku).Perm S
      ∧ (∀ x ∈ S, (mst.map market.StockRec.sku).count x = 1)
      ∧ (∀ r ∈ mst, r.sku ∈ S)) := by
  have hp1 := seller.create_stocks_perm F S st ids h1
  have hp2 := market.create_stocks_perm_m F S wid date mst mids h2
  refine ⟨⟨hp1, ?_, ?_⟩, hp2, ?_, ?_⟩
  · intro x hx
    rw [hp1.count_eq]
    exact List.count_eq_one_of_mem hnd hx
  · intro r hr
    exact hp1.subset (List.mem_map_of_mem seller.StockRec.offer_id hr)
  · intro x hx
    rw [hp2.count_eq]
    exact List.count_eq_one_of_mem hnd hx
  · intro r hr
    exact hp2.subset (List.mem_map_of_mem market.StockRec.sku hr)

/-- C1 witness: the theorem applied to the concrete fixture
`S = ["A","B"]`, `F = [{code "A", qty "5"}]` on both channels. -/
theorem claim_C1_witness :
    (["A", "B"] : List String).Nodup
    ∧ (([⟨"A", 5⟩, ⟨"B", 0⟩] : List seller.StockRec).map
        seller.StockRec.offer_id).Perm ["A", "B"]
    ∧ (([⟨"A", "w", [⟨5, "FIT", "d"⟩]⟩, ⟨"B", "w", [⟨0, "FIT", "d"⟩]⟩] :
        List market.StockRec).map market.StockRec.sku).Perm ["A", "B"] := by
  have h := claim_C1_stock_output_ids [⟨"A", "5", "100"⟩] ["A", "B"]
    [⟨"A", 5⟩, ⟨"B", 0⟩] ["B"]
    [⟨"A", "w", [⟨5, "FIT", "d"⟩]⟩, ⟨"B", "w", [⟨0, "FIT", "d"⟩]⟩] ["B"]
    "w" "d" (by decide) (by decide) (by decide)
  exact ⟨by decide, h.1.1, h.2.1⟩

/-- C10: in `seller.main` the very offer-id list drained by `create_stocks`
is then fed to `create_prices`, so (for a duplicate-free id list) the
price-update list `main` builds is always empty. -/
theorem claim_C10_main_price_list_empty (F : List FeedRecord) (S : List String)
    (ps : List seller.PriceRec)
    (hnd : S.Nodup) (hrun : seller.main_prices F S = some ps) : ps = [] := by
  unfold seller.main_prices at hrun
  cases h1 : seller.create_stocks F S with
  | none => rw [h1] at hrun; exact absurd hrun (by simp)
  | some p =>
    obtain ⟨st, ids⟩ := p
    rw [h1] at hrun
    simp only [Option.some.injEq] at hrun
    obtain ⟨st1, hloop, _⟩ := seller.create_stocks_inv F S st ids h1
    have hun := seller.stocksLoop_unmatched F S st1 ids hnd hloop
    have hdisj : ∀ v ∈ F, v.code ∉ ids :=
      fun v hv hmem => hun v.code hmem v hv rfl
    rw [← hrun]
    exact seller.create_prices_nil_of_disjoint F ids hdisj

/-- C10 witness: the theorem applied to `S = ["A","B"]`,
`F = [{code "A", qty "5", price "100"}]`; the price list of `main` is empty. -/
theorem claim_C10_witness :
    (["A", "B"] : List String).Nodup
    ∧ seller.main_prices [⟨"A", "5", "100"⟩] ["A", "B"] =
        some ([] : List seller.PriceRec) :=
  ⟨by decide,
    let h := claim_C10_main_price_list_empty [⟨"A", "5", "100"⟩] ["A", "B"]
      (seller.create_prices [⟨"A", "5", "100"⟩] ["B"]) (by decide) (by decide)
    by rw [show seller.main_prices [⟨"A", "5", "100"⟩] ["A", "B"] =
        some (seller.create_prices [⟨"A", "5", "100"⟩] ["B"]) from by decide, h]⟩

/-- C2 counterexample: the claim quantifies over every feed, but a feed
quantity token carrying a minus sign (accepted by Python `int`) produces a
negative count: with `S = ["A"]` and one feed row whose token is `"-5"`,
`seller.create_stocks` emits a record with `stock = -5 < 0`. -/
theorem claim_C2_counterexample :
    seller.create_stocks [⟨"A", "-5", "100"⟩] ["A"] = some ([⟨"A", -5⟩], [])
    ∧ ¬(0 ≤ (-5 : Int)) := by decide

/-- C2 (amended): provided no feed quantity token starts with a minus sign,
every record `create_stocks` emits has a non-negative count, and the count
is 0 iff the id of the offer is absent from the feed or the (first) feed record
matching it has a token normalizing to zero; on the fixture
`S = ["A","B"]`, `F = [{code "A"}]` the stock output has exactly records
for A and B (B zeroed) and the price output has exactly one record (A). -/
theorem claim_C2_amended_stock_counts (F : List FeedRecord) (S : List String)
    (st : List seller.StockRec) (ids : List String)
    (hnd : S.Nodup)
    (htok : ∀ w ∈ F, w.quantity.toList.head? ≠ some (Char.ofNat 45))
    (hrun : seller.create_stocks F S = some (st, ids)) :
    (∀ r ∈ st, 0 ≤ r.stock ∧
      (r.stock = 0 ↔
        F.find? (fun u => u.code == r.offer_id) = none ∨
        ∃ v, F.find? (fun u => u.code == r.offer_id) = some v ∧
          normalizeQuantity v.quantity = some 0))
    ∧ seller.create_stocks [⟨"A", "5", "100"⟩] ["A", "B"] =
        some ([⟨"A", 5⟩, ⟨"B", 0⟩], ["B"])
    ∧ (seller.create_prices [⟨"A", "5", "100"⟩] ["A", "B"]).map
        seller.PriceRec.offer_id = ["A"] := by
  refine ⟨?_, by decide, by decide⟩
  obtain ⟨st1, hloop, rfl⟩ := seller.create_stocks_inv F S st ids hrun
  intro r hr
  rcases List.mem_append.mp hr with hr1 | hr2
  · obtain ⟨v, hfind, hnq⟩ := seller.stocksLoop_source F S st1 ids hnd hloop r hr1
    have hvF : v ∈ F := List.mem_of_find?_eq_some hfind
    refine ⟨normalizeQuantity_nonneg v.quantity r.stock (htok v hvF) hnq, ?_, ?_⟩
    · intro h0
      exact Or.inr ⟨v, hfind, h0 ▸ hnq⟩
    · intro hor
      rcases hor with hnone | ⟨v', hfind', h0⟩
      · rw [hfind] at hnone; exact absurd hnone (by simp)
      · rw [hfind] at hfind'
        obtain rfl := Option.some.inj hfind'
        rw [hnq] at h0
        exact Option.some.inj h0
  · obtain ⟨i, hi, rfl⟩ := List.mem_map.mp hr2
    refine ⟨le_refl 0, ?_, fun _ => rfl⟩
    intro _
    left
    rw [List.find?_eq_none]
    intro u hu
    simp only [beq_iff_eq]
    exact seller.stocksLoop_unmatched F S st1 ids hnd hloop i hi u hu

/-- C2 witness: the amended theorem applied to the fixture
`S = ["A","B"]`, `F = [{code "A", qty "5"}]`. -/
theorem claim_C2_witness :
    ((["A", "B"] : List String).Nodup
      ∧ (∀ w ∈ [(⟨"A", "5", "100"⟩ : FeedRecord)],
          w.quantity.toList.head? ≠ some (Char.ofNat 45)))
    ∧ (∀ r ∈ ([⟨"A", 5⟩, ⟨"B", 0⟩] : List seller.StockRec), 0 ≤ r.stock ∧
        (r.stock = 0 ↔
          [(⟨"A", "5", "100"⟩ : FeedRecord)].find?
            (fun u => u.code == r.offer_id) = none ∨
          ∃ v, [(⟨"A", "5", "100"⟩ : FeedRecord)].find?
            (fun u => u.code == r.offer_id) = some v ∧
            normalizeQuantity v.quantity = some 0)) :=
  ⟨⟨by decide, by decide⟩,
    (claim_C2_amended_stock_counts [⟨"A", "5", "100"⟩] ["A", "B"]
      [⟨"A", 5⟩, ⟨"B", 0⟩] ["B"] (by decide) (by decide) (by decide)).1⟩

/-- C5 counterexample: the claim says the working set passed in is empty
after the pass; with `S = ["A","B"]` and a feed containing only code "A",
the final state of the working list is `["B"]`, not `[]`. -/
theorem claim_C5_counterexample :
    (seller.create_stocks [⟨"A", "5", "100"⟩] ["A", "B"]).map Prod.snd =
      some ["B"]
    ∧ (["B"] : List String) ≠ [] := by decide

/-- C5 (amended): stock reconciliation removes each matched id from the
working list of the caller; afterwards the working list holds exactly the
original ids not matched by any feed record (so it is empty only when
every id was matched), each remaining id got a zero-fill record, and every
original id is accounted for exactly once in the output — on both
channels. -/
theorem claim_C5_amended_working_set (F : List FeedRecord) (S : List String)
    (st : List seller.StockRec) (ids : List String)
    (mst : List market.StockRec) (mids : List String) (wid date : String)
    (hnd : S.Nodup)
    (h1 : seller.create_stocks F S = some (st, ids))
    (h2 : market.create_stocks F S wid date = some (mst, mids)) :
    (ids.Sublist S
      ∧ (∀ x ∈ ids, ∀ v ∈ F, v.code ≠ x)
      ∧ (∀ x ∈ S, x ∉ ids → ∃ v ∈ F, v.code = x)
      ∧ (∀ i ∈ ids, (⟨i, 0⟩ : seller.StockRec) ∈ st)
      ∧ (st.map seller.StockRec.offer_id).Perm S)
    ∧ (mids.Sublist S
      ∧ (∀ x ∈ mids, ∀ v ∈ F, v.code ≠ x)
      ∧ (∀ x ∈ S, x ∉ mids → ∃ v ∈ F, v.code = x)
      ∧ (∀ i ∈ mids, (⟨i, wid, [⟨0, "FIT", date⟩]⟩ : market.StockRec) ∈ mst)
      ∧ (mst.map market.StockRec.sku).Perm S) := by
  obtain ⟨st1, hloop, rfl⟩ := seller.create_stocks_inv F S st ids h1
  obtain ⟨mst1, hmloop, rfl⟩ := market.create_stocks_inv_m F S wid date mst mids h2
  refine ⟨⟨?_, ?_, ?_, ?_, ?_⟩, ?_, ?_, ?_, ?_, ?_⟩
  · exact seller.stocksLoop_sublist F S st1 ids hloop
  · exact seller.stocksLoop_unmatched F S st1 ids hnd hloop
  · exact seller.stocksLoop_matched F S st1 ids hloop
  · intro i hi
    exact List.mem_append_right st1 (List.mem_map_of_mem _ hi)
  · exact seller.create_stocks_perm F S _ ids h1
  · exact market.stocksLoop_sublist_m wid date F S mst1 mids hmloop
  · exact market.stocksLoop_unmatched_m wid date F S mst1 mids hnd hmloop
  · exact market.stocksLoop_matched_m wid date F S mst1 mids hmloop
  · intro i hi
    exact List.mem_append_right mst1 (List.mem_map_of_mem _ hi)
  · exact market.create_stocks_perm_m F S wid date _ mids h2

/-- C5 witness: the amended theorem applied to the fixture
`S = ["A","B"]`, `F = [{code "A", qty "5"}]`. -/
theorem claim_C5_witness :
    (["A", "B"] : List String).Nodup
    ∧ (["B"] : List String).Sublist ["A", "B"]
    ∧ (∀ i ∈ (["B"] : List String),
        (⟨i, 0⟩ : seller.StockRec) ∈ [⟨"A", 5⟩, ⟨"B", 0⟩]) := by
  have h := claim_C5_amended_working_set [⟨"A", "5", "100"⟩] ["A", "B"]
    [⟨"A", 5⟩, ⟨"B", 0⟩] ["B"]
    [⟨"A", "w", [⟨5, "FIT", "d"⟩]⟩, ⟨"B", "w", [⟨0, "FIT", "d"⟩]⟩] ["B"]
    "w" "d" (by decide) (by decide) (by decide)
  exact ⟨by decide, h.1.1, h.1.2.2.2.1⟩

/-- Characterization: `seller.create_prices` emits one record per feed row whose code is in
the offer-id list, in feed order. -/
lemma seller_create_prices_eq (F : List FeedRecord) (S : List String) :
    seller.create_prices F S = (F.filter (fun w => decide (w.code ∈ S))).map
      (fun w => ⟨"UNKNOWN", "RUB", w.code, "0", price_conversion w.price⟩) := by
  induction F with
  | nil => rfl
  | cons w rest ih =>
    rw [seller.create_prices]
    by_cases hc : w.code ∈ S
    · rw [if_pos hc, List.filter_cons_of_pos (by simp [hc]), List.map_cons, ih]
    · rw [if_neg hc, List.filter_cons_of_neg (by simp [hc]), ih]

/-- C6 counterexample: with `S = ["A"]` and a feed holding two rows with
code "A" (tokens "2" then "3"), the stock pass emits a single record whose
value 2 comes from the first occurrence — the duplicate is dropped and the
last occurrence does not win, contradicting the claim for the stock
pass. -/
theorem claim_C6_counterexample :
    seller.create_stocks [⟨"A", "2", "p"⟩, ⟨"A", "3", "q"⟩] ["A"] =
      some ([⟨"A", 2⟩], [])
    ∧ ((2 : Int) ≠ 3) := by decide

/-- C6 (amended): in the stock pass duplicate feed codes ARE collapsed —
at most one record per id is emitted and its value comes from the first
matching feed record (later duplicates are skipped because the id has
been removed from the working set); in the price pass duplicates are not
collapsed: one record per matched occurrence is emitted in feed order, so
the record of the last occurrence comes last. -/
theorem claim_C6_amended_duplicates (F : List FeedRecord) (S : List String)
    (st : List seller.StockRec) (ids : List String)
    (hnd : S.Nodup)
    (hrun : seller.create_stocks F S = some (st, ids)) :
    ((st.map seller.StockRec.offer_id).Nodup
      ∧ (∀ r ∈ st,
          F.find? (fun u => u.code == r.offer_id) = none ∨
          ∃ v, F.find? (fun u => u.code == r.offer_id) = some v ∧
            normalizeQuantity v.quantity = some r.stock))
    ∧ (∀ (G : List FeedRecord) (T : List String),
        seller.create_prices G T = (G.filter (fun w => decide (w.code ∈ T))).map
          (fun w => ⟨"UNKNOWN", "RUB", w.code, "0", price_conversion w.price⟩))
    ∧ seller.create_prices [⟨"A", "2", "p"⟩, ⟨"A", "3", "q"⟩] ["A"] =
        [⟨"UNKNOWN", "RUB", "A", "0", price_conversion "p"⟩,
         ⟨"UNKNOWN", "RUB", "A", "0", price_conversion "q"⟩] := by
  refine ⟨⟨?_, ?_⟩, seller_create_prices_eq, by decide⟩
  · exact ((seller.create_stocks_perm F S st ids hrun).nodup_iff).mpr hnd
  · obtain ⟨st1, hloop, rfl⟩ := seller.create_stocks_inv F S st ids hrun
    intro r hr
    rcases List.mem_append.mp hr with hr1 | hr2
    · obtain ⟨v, hfind, hnq⟩ := seller.stocksLoop_source F S st1 ids hnd hloop r hr1
      exact Or.inr ⟨v, hfind, hnq⟩
    · obtain ⟨i, hi, rfl⟩ := List.mem_map.mp hr2
      left
      rw [List.find?_eq_none]
      intro u hu
      simp only [beq_iff_eq]
      exact seller.stocksLoop_unmatched F S st1 ids hnd hloop i hi u hu

/-- C6 witness: the amended theorem applied to the duplicate-code
fixture. -/
theorem claim_C6_witness :
    (["A"] : List String).Nodup
    ∧ (([⟨"A", 2⟩] : List seller.StockRec).map seller.StockRec.offer_id).Nodup :=
  ⟨by decide,
    (claim_C6_amended_duplicates [⟨"A", "2", "p"⟩, ⟨"A", "3", "q"⟩] ["A"]
      [⟨"A", 2⟩] [] (by decide) (by decide)).1.1⟩

/-- C3: the quantity normalizer maps ">10" to 100, "1" to 0, any other
all-digit token to its base-10 value, and fails (the `ValueError` from
Python `int`, modelled as `none`) on every token other than ">10" and "1"
that `int` does not accept. -/
theorem claim_C3_quantity_normalizer (s : String)
    (hne : s.toList ≠ []) (hdig : s.toList.all Char.isDigit) (h1 : s ≠ "1") :
    normalizeQuantity ">10" = some 100
    ∧ normalizeQuantity "1" = some 0
    ∧ normalizeQuantity s = some (digitsToNat s.toList : Int)
    ∧ (∀ t : String, t ≠ ">10" → t ≠ "1" → isNumericToken t = false →
        normalizeQuantity t = none) := by
  refine ⟨by decide, by decide, ?_, ?_⟩
  · have h10 : s ≠ ">10" := by
      intro heq
      rw [heq] at hdig
      exact absurd hdig (by decide)
    unfold normalizeQuantity
    rw [if_neg h10, if_neg h1]
    exact pyInt_of_digits s hne hdig
  · intro t ht10 ht1 hnum
    unfold normalizeQuantity
    rw [if_neg ht10, if_neg ht1]
    exact pyInt_eq_none_of_not_numeric t hnum

/-- C3 witness: the theorem applied to the digit token "7" and, for the
failure branch, to the non-numeric token "abc". -/
theorem claim_C3_witness :
    (("7" : String).toList ≠ [] ∧ ("7" : String).toList.all Char.isDigit = true
      ∧ ("7" : String) ≠ "1")
    ∧ normalizeQuantity "7" = some (digitsToNat ("7" : String).toList : Int)
    ∧ normalizeQuantity "abc" = none :=
  ⟨⟨by decide, by decide, by decide⟩,
   (claim_C3_quantity_normalizer "7" (by decide) (by decide) (by decide)).2.2.1,
   (claim_C3_quantity_normalizer "7" (by decide) (by decide) (by decide)).2.2.2
      "abc" (by decide) (by decide) (by decide)⟩

/-- C4: `price_conversion` does split on the first dot and strip
non-digits (so the apostrophe-and-dot price text gives "5990") and the dotless prefix of
"120 руб." gives "120"), but contrary to the claim it never fails: on an
input whose integer segment holds no digit it silently returns the empty
string instead of raising a `MalformedPriceError`. -/
theorem claim_C4_price_conversion_behavior :
    price_conversion ("5" ++ String.mk [Char.ofNat 39] ++ "990.00 руб.") = "5990"
    ∧ price_conversion "120 руб." = "120"
    ∧ price_conversion "руб." = ""
    ∧ price_conversion "" = "" := by decide

/-- C7: for every list and positive chunk size, `divide` yields consecutive
non-empty chunks of at most `n` elements whose concatenation is the
original list; dispatching submits once per chunk in order, an error on a
chunk (after earlier chunks succeeded) propagates immediately, and a
2050-element list with chunk size 2000 yields exactly the sizes
[2000, 50]. -/
theorem claim_C7_divide_dispatch {α ε β : Type} (lst : List α) (n : Nat)
    (hn : 0 < n) :
    ((divide lst n).flatten = lst)
    ∧ (∀ c ∈ divide lst n, c.length ≤ n ∧ c ≠ [])
    ∧ (∀ (submit : List α → Except ε β) (e : ε) (pre : List (List α))
        (c : List α) (post : List (List α)),
        divide lst n = pre ++ c :: post →
        (∀ p ∈ pre, ∃ b, submit p = Except.ok b) →
        submit c = Except.error e →
        dispatch lst n submit = Except.error e)
    ∧ (∀ submit : List α → Except ε β,
        (∀ c ∈ divide lst n, ∃ b, submit c = Except.ok b) →
        ∃ bs, dispatch lst n submit = Except.ok bs ∧
          bs.length = (divide lst n).length)
    ∧ (divide (List.replicate 2050 (0 : Nat)) 2000).map List.length =
        [2000, 50] := by
  refine ⟨divide_flatten lst n hn, ?_, ?_, ?_, ?_⟩
  · intro c hc
    exact ⟨divide_chunk_le lst n c hc, divide_chunk_ne_nil lst n hn c hc⟩
  · intro submit e pre c post hsplit hok hc
    unfold dispatch
    rw [hsplit]
    exact dispatchChunks_error submit e pre c post hok hc
  · intro submit hok
    exact dispatchChunks_ok submit (divide lst n) hok
  · have h1 : (List.replicate 2050 (0 : Nat)).take 2000 =
        List.replicate 2000 (0 : Nat) := by
      rw [List.take_replicate, Nat.min_eq_left (by norm_num)]
    have h2 : (List.replicate 2050 (0 : Nat)).drop 2000 =
        List.replicate 50 (0 : Nat) := by
      rw [List.drop_replicate]
    rw [divide_step (List.replicate 2050 (0 : Nat)) 2000 (by norm_num)
        (by rw [List.length_replicate]; norm_num)]
    rw [h1, h2]
    rw [divide_small (List.replicate 50 (0 : Nat)) 2000 (by norm_num)
        (by rw [List.length_replicate]; norm_num) (by simp)]
    rw [List.map_cons, List.map_cons, List.map_nil,
      List.length_replicate, List.length_replicate]

/-- C7 witness: the theorem applied to the list [1,2,3] with chunk size
2. -/
theorem claim_C7_witness :
    (0 < 2) ∧ (divide [1, 2, 3] 2).flatten = [1, 2, 3] :=
  ⟨by decide, (@claim_C7_divide_dispatch Nat Unit Unit [1, 2, 3] 2 (by decide)).1⟩

/-- C9 counterexample: the claim says Channel A dispatches price updates
in chunks of 900 on every dispatch path, but `seller.upload_prices`
divides by 1000: a 901-record price list goes out as a single batch of
901 (> 900) instead of batches of 900 and 1. -/
theorem claim_C9_counterexample :
    (seller.upload_price_batches
      (List.replicate 901 ⟨"UNKNOWN", "RUB", "A", "0", "100"⟩)).map
      List.length = [901]
    ∧ ¬(901 ≤ 900) := by
  constructor
  · unfold seller.upload_price_batches
    rw [divide_small _ _ (by norm_num)
      (by rw [List.length_replicate]; norm_num)
      (by intro h
          have hl := congrArg List.length h
          rw [List.length_replicate] at hl
          exact absurd hl (by norm_num))]
    rw [List.map_cons, List.map_nil, List.length_replicate]
  · norm_num

/-- C9 (amended): the chunk sizes are fixed per dispatch path:
Channel A (seller) uses 100 for stock on both its paths and 900 for price
in `main` — but 1000 (not 900) in `upload_prices`; Channel B (market)
uses 2000 for stock and 500 for price on every path.  Each path's batches
concatenate back to the input and respect the path's bound. -/
theorem claim_C9_amended_chunk_sizes :
    (∀ l : List seller.StockRec, (seller.stock_batches l).flatten = l
      ∧ ∀ c ∈ seller.stock_batches l, c.length ≤ 100)
    ∧ (∀ l : List seller.PriceRec, (seller.main_price_batches l).flatten = l
      ∧ ∀ c ∈ seller.main_price_batches l, c.length ≤ 900)
    ∧ (∀ l : List seller.PriceRec, (seller.upload_price_batches l).flatten = l
      ∧ ∀ c ∈ seller.upload_price_batches l, c.length ≤ 1000)
    ∧ (seller.upload_price_batches
        (List.replicate 1000 ⟨"UNKNOWN", "RUB", "A", "0", "100"⟩)).map
        List.length = [1000]
    ∧ (∀ l : List market.StockRec, (market.stock_batches l).flatten = l
      ∧ ∀ c ∈ market.stock_batches l, c.length ≤ 2000)
    ∧ (∀ l : List market.PriceRec, (market.price_batches l).flatten = l
      ∧ ∀ c ∈ market.price_batches l, c.length ≤ 500) := by
  refine ⟨?_, ?_, ?_, ?_, ?_, ?_⟩
  · intro l
    exact ⟨divide_flatten l 100 (by norm_num),
      fun c hc => divide_chunk_le l 100 c hc⟩
  · intro l
    exact ⟨divide_flatten l 900 (by norm_num),
      fun c hc => divide_chunk_le l 900 c hc⟩
  · intro l
    exact ⟨divide_flatten l 1000 (by norm_num),
      fun c hc => divide_chunk_le l 1000 c hc⟩
  · unfold seller.upload_price_batches
    rw [divide_small _ _ (by norm_num)
      (by rw [List.length_replicate])
      (by intro h
          have hl := congrArg List.length h
          rw [List.length_replicate] at hl
          exact absurd hl (by norm_num))]
    rw [List.map_cons, List.map_nil, List.length_replicate]
  · intro l
    exact ⟨divide_flatten l 2000 (by norm_num),
      fun c hc => divide_chunk_le l 2000 c hc⟩
  · intro l
    exact ⟨divide_flatten l 500 (by norm_num),
      fun c hc => divide_chunk_le l 500 c hc⟩

/-- C8: with the response oracles abstracting the two catalog APIs, each
listing loop stops exactly at the first page satisfying its
channel-specific exit condition — empty next-page token for the market
loop, reported total equal to the accumulated count for the seller loop —
and under the precondition that the condition eventually holds (`k` being
the first such page) the loop terminates, returning the ids accumulated
over pages `0..k`; with fuel at most `k` no exit has occurred. -/
theorem claim_C8_pagination_termination
    (mresp : Nat → market.EntryPage) (sresp : Nat → seller.ProductPage)
    (k₁ k₂ : Nat)
    (hm : market.offersStop mresp k₁)
    (hmfirst : ∀ j, j < k₁ → ¬ market.offersStop mresp j)
    (hs : seller.offersStop sresp k₂)
    (hsfirst : ∀ j, j < k₂ → ¬ seller.offersStop sresp j) :
    (∀ fuel, k₁ < fuel → market.get_offer_ids mresp fuel =
        some ((market.offersAccum mresp k₁).map market.Entry.shopSku))
    ∧ (∀ fuel, fuel ≤ k₁ → market.get_offer_ids mresp fuel = none)
    ∧ (∀ fuel, k₂ < fuel → seller.get_offer_ids sresp fuel =
        some ((seller.offersAccum sresp k₂).map seller.Product.offer_id))
    ∧ (∀ fuel, fuel ≤ k₂ → seller.get_offer_ids sresp fuel = none) := by
  have hm' : (mresp (0 + k₁)).nextPageToken = "" := by
    rw [Nat.zero_add]; exact hm
  have hmin' : ∀ j, j < k₁ → (mresp (0 + j)).nextPageToken ≠ "" := by
    intro j hj; rw [Nat.zero_add]; exact hmfirst j hj
  obtain ⟨msome, mnone⟩ := market.offersLoop_run_m mresp k₁ 0 [] hm' hmin'
  have hs' : (sresp (0 + k₂)).total =
      ([] : List seller.Product).length +
        (seller.offersAccumFrom sresp 0 (k₂ + 1)).length := by
    rw [Nat.zero_add, List.length_nil, Nat.zero_add]
    exact hs
  have hsmin' : ∀ j, j < k₂ → (sresp (0 + j)).total ≠
      ([] : List seller.Product).length +
        (seller.offersAccumFrom sresp 0 (j + 1)).length := by
    intro j hj
    rw [Nat.zero_add, List.length_nil, Nat.zero_add]
    exact hsfirst j hj
  refine ⟨?_, ?_, ?_, ?_⟩
  · intro fuel hf
    unfold market.get_offer_ids
    rw [msome fuel hf]
    rfl
  · intro fuel hf
    unfold market.get_offer_ids
    rw [mnone fuel hf]
    rfl
  · intro fuel hf
    obtain ⟨ssome, _⟩ := seller.offersLoop_run sresp k₂ 0 [] hs' hsmin'
    unfold seller.get_offer_ids
    rw [ssome fuel hf]
    rfl
  · intro fuel hf
    obtain ⟨_, snone⟩ := seller.offersLoop_run sresp k₂ 0 [] hs' hsmin'
    unfold seller.get_offer_ids
    rw [snone fuel hf]
    rfl

/-- Two-page market response oracle used by the C8 witness: page 0 carries
a non-empty next-page token, page 1 an empty one. -/
def marketRespW : Nat → market.EntryPage := fun i =>
  if i = 0 then ⟨[⟨"m0"⟩], "t"⟩ else ⟨[⟨"m1"⟩], ""⟩

/-- Two-page seller response oracle used by the C8 witness: the reported
total (2) is reached after the second page. -/
def sellerRespW : Nat → seller.ProductPage := fun i =>
  if i = 0 then ⟨[⟨"s0"⟩], 2, "x"⟩ else ⟨[⟨"s1"⟩], 2, ""⟩

/-- C8 witness: the theorem applied to the two concrete two-page
oracles. -/
theorem claim_C8_witness :
    market.get_offer_ids marketRespW 2 = some ["m0", "m1"]
    ∧ seller.get_offer_ids sellerRespW 2 = some ["s0", "s1"] := by
  have h := claim_C8_pagination_termination marketRespW sellerRespW 1 1
    (by unfold market.offersStop; decide)
    (by unfold market.offersStop; decide)
    (by unfold seller.offersStop; decide)
    (by unfold seller.offersStop; decide)
  refine ⟨?_, ?_⟩
  · rw [h.1 2 (by norm_num)]
    decide
  · rw [h.2.2.1 2 (by norm_num)]
    decide
